import Mathlib

/-!
Verification of the artifact-saver core (src/fileUtils.ts).

Strings are modelled at the character level (`Str := List Char`), so that
JavaScript's `String.prototype.split('/')`, `endsWith`, `includes`, the
per-character regex replacement in `sanitizeFileName`, and Node's posix
`path.join` / `path.resolve` / `path.normalize` can be embedded faithfully
and reasoned about by list induction.

Asynchronous filesystem effects are made explicit: `saveArtifactToFile`
returns the output path together with the ordered list of recursive-mkdir
calls it performs and the write it issues (all mkdir calls happen before the
write, in list order); `updateSavePath` takes the outcome of its single
mkdir attempt as a parameter; the directory lister runs against an explicit
tree model of the filesystem in which each directory is readable or not.
-/

abbrev Str := List Char

/-- Model of JavaScript `s.split('/')`: splits at every occurrence of the
separator, keeping empty segments (including leading and trailing ones). -/
def splitSlash : Str → List Str
  | [] => [[]]
  | c :: rest =>
    if c = '/' then [] :: splitSlash rest
    else
      match splitSlash rest with
      | [] => [[c]]
      | h :: t => (c :: h) :: t

/-- Model of JavaScript `parts.join('/')`. -/
def joinSlash : List Str → Str
  | [] => []
  | [s] => s
  | s :: rest => s ++ '/' :: joinSlash rest

/-- Model of JavaScript `s.endsWith(suffix)`. -/
def endsWithStr (s suffix : Str) : Bool :=
  suffix.isSuffixOf s

/-- Characters matched by the regex `[<>:"\\|?*\x00-\x1F]` in
`sanitizeFileName` (src/fileUtils.ts line 133). -/
def isForbiddenChar (c : Char) : Bool :=
  c == '<' || c == '>' || c == ':' || c == '"' || c == '\\' ||
  c == '|' || c == '?' || c == '*' || decide (c.toNat ≤ 0x1F)

/-- src/fileUtils.ts, `sanitizeFileName`: replace every forbidden character
by an underscore; `/` is deliberately not in the forbidden set. -/
def sanitizeFileName (fileName : Str) : Str :=
  fileName.map (fun c => if isForbiddenChar c then '_' else c)

/-- ASCII lower-casing of a string, modelling `language.toLowerCase()`. -/
def toLowerStr (s : Str) : Str :=
  s.map Char.toLower

/-- The language-to-extension record of `getCodeExtension`
(src/fileUtils.ts lines 101-125), in source order. -/
def codeExtensions : List (Str × Str) :=
  [ (("python").data, ("py").data),
    (("javascript").data, ("js").data),
    (("typescript").data, ("ts").data),
    (("java").data, ("java").data),
    (("c").data, ("c").data),
    (("cpp").data, ("cpp").data),
    (("csharp").data, ("cs").data),
    (("go").data, ("go").data),
    (("ruby").data, ("rb").data),
    (("rust").data, ("rs").data),
    (("php").data, ("php").data),
    (("swift").data, ("swift").data),
    (("kotlin").data, ("kt").data),
    (("scala").data, ("scala").data),
    (("shell").data, ("sh").data),
    (("bash").data, ("sh").data),
    (("powershell").data, ("ps1").data),
    (("sql").data, ("sql").data),
    (("html").data, ("html").data),
    (("css").data, ("css").data),
    (("json").data, ("json").data),
    (("yaml").data, ("yaml").data),
    (("xml").data, ("xml").data) ]

/-- First-match lookup in an association list, modelling the JavaScript
record property access `extensions[language.toLowerCase()]`. -/
def lookupExt : List (Str × Str) → Str → Option Str
  | [], _ => none
  | (k, v) :: rest, key => if key = k then some v else lookupExt rest key

/-- src/fileUtils.ts, `getCodeExtension`: look the lower-cased language up
in the record, defaulting to `txt`. -/
def getCodeExtension (language : Str) : Str :=
  (lookupExt codeExtensions (toLowerStr language)).getD (("txt").data)

/-- Model of the JavaScript default `language || 'txt'`: `undefined` and the
empty string are both falsy. -/
def jsOrTxt : Option Str → Str
  | none => ("txt").data
  | some l => if l = [] then ("txt").data else l

/-- src/fileUtils.ts, `getExtensionForType`: switch on the artifact type. -/
def getExtensionForType (type : Str) (language : Option Str) : Str :=
  if type = ("application/vnd.ant.code").data then getCodeExtension (jsOrTxt language)
  else if type = ("text/markdown").data then ("md").data
  else if type = ("text/html").data then ("html").data
  else if type = ("image/svg+xml").data then ("svg").data
  else if type = ("application/vnd.ant.mermaid").data then ("mmd").data
  else if type = ("application/vnd.ant.react").data then ("jsx").data
  else ("txt").data

/-- Whether a path string starts with the separator (Node's
`isAbsolute` check for posix paths). -/
def isAbsolutePath : Str → Bool
  | '/' :: _ => true
  | _ => false

/-- One step of Node's `normalizeString`: process a single segment against
the stack of segments kept so far (stored in reverse order). `..` pops the
previous segment when possible; above the start it is kept only for
relative paths (`allowAboveRoot`). -/
def normStep (allowAboveRoot : Bool) (acc : List Str) (seg : Str) : List Str :=
  if seg = [] ∨ seg = (".").data then acc
  else if seg = ("..").data then
    match acc with
    | [] => if allowAboveRoot then [seg] else []
    | prev :: rest => if prev = ("..").data then seg :: acc else rest
  else seg :: acc

/-- Node's `normalizeString`, at the segment level: resolve `.` and `..`
and drop empty segments. -/
def normalizeSegs (allowAboveRoot : Bool) (segs : List Str) : List Str :=
  (segs.foldl (normStep allowAboveRoot) []).reverse

/-- Node's posix `path.normalize`. -/
def pathNormalize (p : Str) : Str :=
  if p = [] then (".").data
  else
    let abs := isAbsolutePath p
    let body := joinSlash (normalizeSegs (!abs) (splitSlash p))
    if body = [] then
      if abs then ("/").data
      else if p.getLast? = some '/' then ("./").data else (".").data
    else
      let body2 := if p.getLast? = some '/' then body ++ ("/").data else body
      if abs then '/' :: body2 else body2

/-- Node's posix `path.join`: drop empty arguments, join the rest with `/`,
normalize. -/
def pathJoin (paths : List Str) : Str :=
  let nonEmpty := paths.filter (fun s => !s.isEmpty)
  if nonEmpty.isEmpty then (".").data
  else pathNormalize (joinSlash nonEmpty)

/-- Binary `path.join`, the only arity the source uses. -/
def pathJoin2 (a b : Str) : Str :=
  pathJoin [a, b]

/-- Node's posix `path.resolve(p)` with the process working directory
(always an absolute path) supplied explicitly. -/
def pathResolve (cwd p : Str) : Str :=
  let full := if isAbsolutePath p then p else cwd ++ '/' :: p
  '/' :: joinSlash (normalizeSegs false (splitSlash full))

/-- src/types.ts, `Artifact`. `title` and `language` are optional;
`createdAt` is informational only. -/
structure Artifact where
  id : Str
  title : Option Str
  content : Str
  type : Str
  language : Option Str
  createdAt : Nat

/-- src/types.ts, `Config`. -/
structure Config where
  savePath : Str

/-- src/fileUtils.ts, `getConfig`: returns a value copy of the config. -/
def getConfig (config : Config) : Config :=
  { savePath := config.savePath }

/-- JavaScript truthiness of an optional string (`if (artifact.title)`):
`undefined` and the empty string are falsy. -/
def jsTruthy : Option Str → Bool
  | none => false
  | some s => !s.isEmpty

/-- The filesystem effects of one `saveArtifactToFile` call: the returned
output path, the recursive-mkdir calls in execution order (all of which
happen before the write), and the write performed last. -/
structure SaveEffects where
  outputPath : Str
  mkdirCalls : List Str
  written : Str × Str

/-- src/fileUtils.ts, `saveArtifactToFile`, line for line: mkdir the save
root; if the title is truthy, resolve the extension and either split the
title on `/` (mkdir the joined directory path, pop the final segment with
an `artifact-<id>` fallback when it is empty, and append the extension
unless the segment already ends with it) or append the extension to the
whole title; otherwise fall back to `artifact-<id>.<ext>`. The filename
passed to the final join is sanitized; the directory part is not. -/
def saveArtifactToFile (config : Config) (artifact : Artifact) : SaveEffects :=
  if jsTruthy artifact.title then
    let title := artifact.title.getD []
    let extension := getExtensionForType artifact.type artifact.language
    if title.contains '/' then
      let parts := splitSlash title
      let fileName0 := (parts.getLast?).getD []
      let fileName := if fileName0 = [] then ("artifact-").data ++ artifact.id else fileName0
      let dirStructure := joinSlash parts.dropLast
      let dirPath := pathJoin2 config.savePath dirStructure
      let outputPath :=
        if endsWithStr fileName ('.' :: extension) then
          pathJoin2 dirPath (sanitizeFileName fileName)
        else
          pathJoin2 dirPath (sanitizeFileName (fileName ++ '.' :: extension))
      ⟨outputPath, [config.savePath, dirPath], (outputPath, artifact.content)⟩
    else
      let outputPath :=
        pathJoin2 config.savePath (sanitizeFileName (title ++ '.' :: extension))
      ⟨outputPath, [config.savePath], (outputPath, artifact.content)⟩
  else
    let outputPath :=
      pathJoin2 config.savePath
        (sanitizeFileName (("artifact-").data ++ artifact.id ++ '.' ::
          getExtensionForType artifact.type artifact.language))
    ⟨outputPath, [config.savePath], (outputPath, artifact.content)⟩

/-- src/fileUtils.ts, `updateSavePath`: resolve the argument to an absolute
path, attempt the recursive mkdir (its outcome is supplied explicitly), and
only on success replace the config; on failure throw a wrapping error and
leave the config untouched. -/
def updateSavePath (cwd : Str) (newPath : Str) (mkdirResult : Except Str Unit)
    (config : Config) : Except Str Unit × Config :=
  let absolutePath := pathResolve cwd newPath
  match mkdirResult with
  | .ok _ => (.ok (), { savePath := absolutePath })
  | .error e => (.error (("Failed to set save path: ").data ++ e), config)

/-- Tree model of the filesystem under a directory: each entry is a file or
a directory; an unreadable directory is one whose `readdir` rejects. -/
inductive FsTree where
  | file (name : Str)
  | dir (name : Str) (readable : Bool) (entries : List FsTree)

mutual
/-- Per-entry body of `listFilesRecursively` (src/fileUtils.ts lines
144-156): a file contributes its relative path; a directory is recursed
into, and if its `readdir` rejects the error is caught and logged and the
directory contributes nothing. -/
def listEntry (relativePath : Str) : FsTree → List Str
  | .file n => [pathJoin2 relativePath n]
  | .dir n readable entries =>
    if readable then listEntries (pathJoin2 relativePath n) entries else []

/-- The entry loop of `listFilesRecursively`: results are pushed in entry
order. -/
def listEntries (relativePath : Str) : List FsTree → List Str
  | [] => []
  | e :: es => listEntry relativePath e ++ listEntries relativePath es
end

/-- src/fileUtils.ts, `listSavedArtifacts`: run `listFilesRecursively` at
the save root with an empty relative path. `none` models a missing root
(`readdir` rejects, the catch inside `listFilesRecursively` fires, and the
already-empty results array is returned); `some (readable, entries)` models
a present root directory. -/
def listSavedArtifacts : Option (Bool × List FsTree) → List Str
  | none => []
  | some (false, _) => []
  | some (true, entries) => listEntries [] entries

/-- A normal path component: nonempty, not a dot entry, and free of the
separator. -/
def NormalSeg (s : Str) : Prop :=
  s ≠ [] ∧ s ≠ (".").data ∧ s ≠ ("..").data ∧ '/' ∉ s

instance (s : Str) : Decidable (NormalSeg s) := by
  unfold NormalSeg; infer_instance

/-- A normalized absolute path: a leading separator followed by a nonempty
remainder all of whose components are normal. -/
def NormalAbsPath (p : Str) : Prop :=
  p.head? = some '/' ∧ p.tail ≠ [] ∧ ∀ s ∈ splitSlash p.tail, NormalSeg s

instance (p : Str) : Decidable (NormalAbsPath p) := by
  unfold NormalAbsPath; infer_instance

/-- The normalized segment list of an absolute path, as computed inside
`pathNormalize` and `pathResolve`. -/
def segsOf (p : Str) : List Str :=
  normalizeSegs false (splitSlash p)

lemma splitSlash_ne_nil (s : Str) : splitSlash s ≠ [] := by
  match s with
  | [] => simp [splitSlash]
  | c :: rest =>
    simp only [splitSlash]
    split
    · simp
    · split <;> simp

lemma splitSlash_cons_slash (rest : Str) :
    splitSlash ('/' :: rest) = [] :: splitSlash rest := by
  simp [splitSlash]

lemma splitSlash_cons_ne {c : Char} (rest : Str) (hc : c ≠ '/') :
    splitSlash (c :: rest) =
      (c :: (splitSlash rest).headI) :: (splitSlash rest).tail := by
  simp only [splitSlash, if_neg hc]
  cases hsr : splitSlash rest with
  | nil => exact absurd hsr (splitSlash_ne_nil rest)
  | cons h t => rfl

lemma splitSlash_append_slash (a b : Str) :
    splitSlash (a ++ '/' :: b) = splitSlash a ++ splitSlash b := by
  induction a with
  | nil => simp [splitSlash]
  | cons c a ih =>
    by_cases hc : c = '/'
    · subst hc
      simp [splitSlash, ih]
    · obtain ⟨h, t, hht⟩ : ∃ h t, splitSlash a = h :: t := by
        cases hsa : splitSlash a with
        | nil => exact absurd hsa (splitSlash_ne_nil a)
        | cons h t => exact ⟨h, t, rfl⟩
      rw [List.cons_append, splitSlash_cons_ne _ hc, splitSlash_cons_ne _ hc,
        ih, hht]
      simp

lemma splitSlash_eq_single {s : Str} (h : '/' ∉ s) : splitSlash s = [s] := by
  induction s with
  | nil => rfl
  | cons c rest ih =>
    have hc : c ≠ '/' := fun hcc => h (by simp [hcc])
    have hr : '/' ∉ rest := fun hm => h (by simp [hm])
    simp only [splitSlash, if_neg hc, ih hr]

lemma mem_splitSlash_no_slash {s seg : Str} (h : seg ∈ splitSlash s) : '/' ∉ seg := by
  induction s generalizing seg with
  | nil =>
    simp [splitSlash] at h
    simp [h]
  | cons c rest ih =>
    by_cases hc : c = '/'
    · subst hc
      rw [splitSlash_cons_slash] at h
      rcases List.mem_cons.mp h with h1 | h2
      · simp [h1]
      · exact ih h2
    · simp only [splitSlash, if_neg hc] at h
      cases hsr : splitSlash rest with
      | nil => exact absurd hsr (splitSlash_ne_nil rest)
      | cons hh tt =>
        rw [hsr] at h
        rcases List.mem_cons.mp h with h1 | h2
        · subst h1
          intro hmem
          rcases List.mem_cons.mp hmem with h3 | h4
          · exact hc h3.symm
          · exact ih (by rw [hsr]; exact List.mem_cons_self hh tt) h4
        · exact ih (by rw [hsr]; exact List.mem_cons_of_mem hh h2)

lemma joinSlash_cons {s : Str} {rest : List Str} (h : rest ≠ []) :
    joinSlash (s :: rest) = s ++ '/' :: joinSlash rest := by
  cases rest with
  | nil => exact absurd rfl h
  | cons r rs => rfl

lemma joinSlash_splitSlash (s : Str) : joinSlash (splitSlash s) = s := by
  induction s with
  | nil => rfl
  | cons c rest ih =>
    by_cases hc : c = '/'
    · subst hc
      rw [splitSlash_cons_slash, joinSlash_cons (splitSlash_ne_nil rest), ih]
      rfl
    · simp only [splitSlash, if_neg hc]
      cases hsr : splitSlash rest with
      | nil => exact absurd hsr (splitSlash_ne_nil rest)
      | cons h t =>
        rw [hsr] at ih
        cases t with
        | nil =>
          simp only [joinSlash] at ih ⊢
          rw [ih]
        | cons t1 ts =>
          rw [joinSlash_cons (by simp)] at ih
          rw [joinSlash_cons (by simp)]
          simp only [List.cons_append, ih]

lemma splitSlash_joinSlash {segs : List Str} (h1 : segs ≠ [])
    (h2 : ∀ s ∈ segs, '/' ∉ s) : splitSlash (joinSlash segs) = segs := by
  induction segs with
  | nil => exact absurd rfl h1
  | cons s rest ih =>
    cases rest with
    | nil =>
      show splitSlash (joinSlash [s]) = [s]
      exact splitSlash_eq_single (h2 s (by simp))
    | cons r rs =>
      rw [joinSlash_cons (by simp), splitSlash_append_slash,
        splitSlash_eq_single (h2 s (by simp)),
        ih (by simp) (fun x hx => h2 x (List.mem_cons_of_mem s hx))]
      rfl

lemma joinSlash_append {X Y : List Str} (hX : X ≠ []) (hY : Y ≠ []) :
    joinSlash (X ++ Y) = joinSlash X ++ '/' :: joinSlash Y := by
  induction X with
  | nil => exact absurd rfl hX
  | cons x xs ih =>
    cases xs with
    | nil =>
      rw [List.singleton_append, joinSlash_cons hY]
      rfl
    | cons x1 x2 =>
      have h1 : (x1 :: x2 : List Str) ++ Y ≠ [] := by simp
      rw [List.cons_append, joinSlash_cons h1, ih (by simp),
        show joinSlash (x :: x1 :: x2) = x ++ '/' :: joinSlash (x1 :: x2) from
          joinSlash_cons (by simp)]
      simp

lemma normStep_normal {ar : Bool} {acc : List Str} {seg : Str}
    (h : NormalSeg seg) : normStep ar acc seg = seg :: acc := by
  obtain ⟨h1, h2, h3, _⟩ := h
  unfold normStep
  rw [if_neg (by simp [h1, h2]), if_neg h3]

lemma foldl_normStep_normal {ar : Bool} {segs : List Str}
    (h : ∀ s ∈ segs, NormalSeg s) (acc : List Str) :
    segs.foldl (normStep ar) acc = segs.reverse ++ acc := by
  induction segs generalizing acc with
  | nil => rfl
  | cons s rest ih =>
    rw [List.foldl_cons, normStep_normal (h s (by simp)),
      ih (fun x hx => h x (List.mem_cons_of_mem s hx)), List.reverse_cons]
    simp

lemma normalizeSegs_empty_cons {ar : Bool} {segs : List Str}
    (h : ∀ s ∈ segs, NormalSeg s) :
    normalizeSegs ar ([] :: segs) = segs := by
  unfold normalizeSegs
  rw [List.foldl_cons,
    show normStep ar [] [] = [] by unfold normStep; rw [if_pos (Or.inl rfl)],
    foldl_normStep_normal h []]
  simp

lemma eq_dropLast_append_of_getLast? {α : Type} {l : List α} {c : α}
    (h : l.getLast? = some c) : l = l.dropLast ++ [c] := by
  induction l with
  | nil => simp at h
  | cons x rest ih =>
    cases rest with
    | nil =>
      simp only [List.getLast?_singleton, Option.some.injEq] at h
      simp [h]
    | cons y t =>
      rw [List.getLast?_cons_cons] at h
      have hyt := ih h
      rw [show (x :: y :: t : List α).dropLast = x :: (y :: t).dropLast from rfl,
        List.cons_append, ← hyt]

lemma getLast?_cons_of_ne_nil {α : Type} {x : α} {l : List α} (h : l ≠ []) :
    (x :: l).getLast? = l.getLast? := by
  cases l with
  | nil => exact absurd rfl h
  | cons y t => exact List.getLast?_cons_cons

lemma normalAbsPath_decomp {p : Str} (h : NormalAbsPath p) :
    p = '/' :: p.tail ∧ p.tail ≠ [] ∧ ∀ s ∈ splitSlash p.tail, NormalSeg s := by
  obtain ⟨h1, h2, h3⟩ := h
  cases p with
  | nil => simp at h1
  | cons c rest =>
    have hc : c = '/' := by simpa using h1
    subst hc
    exact ⟨rfl, h2, h3⟩

lemma segsOf_normalAbs {p : Str} (h : NormalAbsPath p) :
    segsOf p = splitSlash p.tail := by
  obtain ⟨hd, h2, h3⟩ := normalAbsPath_decomp h
  unfold segsOf
  rw [show splitSlash p = [] :: splitSlash p.tail by
      conv_lhs => rw [hd, splitSlash_cons_slash]]
  exact normalizeSegs_empty_cons h3

lemma normalAbs_no_trailing_slash {p : Str} (h : NormalAbsPath p) :
    p.getLast? ≠ some '/' := by
  obtain ⟨hd, h2, h3⟩ := normalAbsPath_decomp h
  intro hlast
  rw [hd, getLast?_cons_of_ne_nil h2] at hlast
  have hsplit : ([] : Str) ∈ splitSlash p.tail := by
    rw [show p.tail = p.tail.dropLast ++ '/' :: [] from
        eq_dropLast_append_of_getLast? hlast,
      splitSlash_append_slash]
    simp [splitSlash]
  exact (h3 [] hsplit).1 rfl

lemma pathNormalize_normalAbs {p : Str} (h : NormalAbsPath p) :
    pathNormalize p = p := by
  obtain ⟨hd, h2, h3⟩ := normalAbsPath_decomp h
  have hp : p ≠ [] := by rw [hd]; simp
  have habs : isAbsolutePath p = true := by rw [hd]; rfl
  have hbody : joinSlash (normalizeSegs false (splitSlash p)) = p.tail := by
    rw [show normalizeSegs false (splitSlash p) = segsOf p from rfl,
      segsOf_normalAbs h, joinSlash_splitSlash]
  unfold pathNormalize
  rw [if_neg hp]
  simp only [habs, Bool.not_true, hbody]
  rw [if_neg h2, if_neg (normalAbs_no_trailing_slash h)]
  simp only [if_true]
  exact hd.symm

lemma normalAbsPath_append {a b : Str} (ha : NormalAbsPath a) (_hb : b ≠ [])
    (hsegs : ∀ s ∈ splitSlash b, NormalSeg s) :
    NormalAbsPath (a ++ '/' :: b) := by
  obtain ⟨hd, h2, h3⟩ := normalAbsPath_decomp ha
  rw [show a ++ '/' :: b = '/' :: (a.tail ++ '/' :: b) by
    conv_lhs => rw [hd]
    rfl]
  refine ⟨rfl, by simp, ?_⟩
  intro s hs
  rw [List.tail_cons, splitSlash_append_slash] at hs
  rcases List.mem_append.mp hs with h | h
  · exact h3 s h
  · exact hsegs s h

lemma pathJoin2_normalAbs {a b : Str} (ha : NormalAbsPath a) (hb : b ≠ [])
    (hsegs : ∀ s ∈ splitSlash b, NormalSeg s) :
    pathJoin2 a b = a ++ '/' :: b := by
  obtain ⟨hd, h2, h3⟩ := normalAbsPath_decomp ha
  have ha_ne : a ≠ [] := by rw [hd]; simp
  unfold pathJoin2 pathJoin
  have hfilter : ([a, b].filter (fun s => !s.isEmpty)) = [a, b] := by
    simp only [List.filter]
    rw [show (!a.isEmpty) = true by simp [ha_ne],
      show (!b.isEmpty) = true by simp [hb]]
  rw [hfilter]
  rw [if_neg (by simp : ¬(([a, b] : List Str).isEmpty = true))]
  rw [show joinSlash [a, b] = a ++ '/' :: b from
      joinSlash_cons (by simp)]
  exact pathNormalize_normalAbs (normalAbsPath_append ha hb hsegs)

lemma segsOf_join {a b : Str} (ha : NormalAbsPath a)
    (hsegs : ∀ s ∈ splitSlash b, NormalSeg s) :
    segsOf (a ++ '/' :: b) = segsOf a ++ splitSlash b := by
  obtain ⟨hd, h2, h3⟩ := normalAbsPath_decomp ha
  rw [segsOf_normalAbs ha]
  unfold segsOf
  rw [show a ++ '/' :: b = '/' :: (a.tail ++ '/' :: b) by
      conv_lhs => rw [hd]
      rfl]
  rw [splitSlash_cons_slash, splitSlash_append_slash]
  refine normalizeSegs_empty_cons ?_
  intro s hs
  rcases List.mem_append.mp hs with h | h
  · exact h3 s h
  · exact hsegs s h

lemma sanitizeFileName_no_forbidden {s : Str} {c : Char}
    (h : c ∈ sanitizeFileName s) : isForbiddenChar c = false := by
  unfold sanitizeFileName at h
  obtain ⟨d, _, hd⟩ := List.mem_map.mp h
  by_cases hf : isForbiddenChar d = true
  · rw [if_pos hf] at hd
    rw [← hd]
    decide
  · rw [if_neg hf] at hd
    rw [← hd]
    exact Bool.eq_false_iff.mpr hf

lemma sanitizeFileName_normalSeg {s : Str} (h : NormalSeg s) :
    NormalSeg (sanitizeFileName s) := by
  obtain ⟨h1, h2, h3, h4⟩ := h
  refine ⟨by simpa [sanitizeFileName] using h1, ?_, ?_, ?_⟩
  · intro habs
    apply h2
    cases s with
    | nil => simp [sanitizeFileName] at habs
    | cons c rest =>
      cases rest with
      | nil =>
        simp only [sanitizeFileName, List.map_cons, List.map_nil] at habs
        have : (if isForbiddenChar c then '_' else c) = '.' := by
          have := congrArg (fun l => l.headI) habs
          simpa using this
        by_cases hf : isForbiddenChar c = true
        · rw [if_pos hf] at this; exact absurd this (by decide)
        · rw [if_neg hf] at this; rw [this]
      | cons d t => simp [sanitizeFileName] at habs
  · intro habs
    apply h3
    cases s with
    | nil => simp [sanitizeFileName] at habs
    | cons c rest =>
      cases rest with
      | nil => simp [sanitizeFileName] at habs
      | cons d t =>
        cases t with
        | cons e u => simp [sanitizeFileName] at habs
        | nil =>
          simp only [sanitizeFileName, List.map_cons, List.map_nil,
            List.cons.injEq] at habs
          obtain ⟨hc, hd, -⟩ := habs
          have hc' : c = '.' := by
            by_cases hf : isForbiddenChar c = true
            · rw [if_pos hf] at hc; exact absurd hc (by decide)
            · rwa [if_neg hf] at hc
          have hd' : d = '.' := by
            by_cases hf : isForbiddenChar d = true
            · rw [if_pos hf] at hd; exact absurd hd (by decide)
            · rwa [if_neg hf] at hd
          rw [hc', hd']
  · intro habs
    apply h4
    obtain ⟨d, hdm, hd⟩ := List.mem_map.mp habs
    by_cases hf : isForbiddenChar d = true
    · rw [if_pos hf] at hd; exact absurd hd (by decide)
    · rw [if_neg hf] at hd; rwa [hd] at hdm

lemma sanitizeFileName_eq_self {s : Str}
    (h : ∀ c ∈ s, isForbiddenChar c = false) : sanitizeFileName s = s := by
  unfold sanitizeFileName
  have heq : ∀ c ∈ s, (if isForbiddenChar c then '_' else c) = id c := by
    intro c hc
    simp [h c hc]
  rw [List.map_congr_left heq, List.map_id] 

lemma contains_iff_mem {s : Str} {c : Char} : s.contains c = true ↔ c ∈ s := by
  induction s with
  | nil => simp [List.contains]
  | cons d rest ih =>
    simp [List.contains] at ih ⊢

lemma lookupExt_mem {table : List (Str × Str)} {k v : Str}
    (h : lookupExt table k = some v) : v ∈ table.map Prod.snd := by
  induction table with
  | nil => simp [lookupExt] at h
  | cons p rest ih =>
    obtain ⟨pk, pv⟩ := p
    simp only [lookupExt] at h
    by_cases hk : k = pk
    · rw [if_pos hk] at h
      injection h with h2
      simp [h2]
    · rw [if_neg hk] at h
      simp [ih h]

/-- Every extension the resolver can produce is a normal, forbidden-free,
dot-free path component. -/
lemma extension_props (type : Str) (language : Option Str) :
    NormalSeg (getExtensionForType type language) ∧
    (∀ c ∈ getExtensionForType type language, isForbiddenChar c = false) ∧
    '.' ∉ getExtensionForType type language := by
  have hvals : ∀ v ∈ codeExtensions.map Prod.snd,
      NormalSeg v ∧ (∀ c ∈ v, isForbiddenChar c = false) ∧ '.' ∉ v := by decide
  have htxt : NormalSeg (("txt").data) ∧
      (∀ c ∈ (("txt").data : Str), isForbiddenChar c = false) ∧
      '.' ∉ (("txt").data : Str) := by decide
  unfold getExtensionForType
  split
  · unfold getCodeExtension
    cases hlk : lookupExt codeExtensions (toLowerStr (jsOrTxt language)) with
    | none => simpa using htxt
    | some v =>
      simp only [Option.getD_some]
      exact hvals v (lookupExt_mem hlk)
  · split
    · decide
    · split
      · decide
      · split
        · decide
        · split
          · decide
          · split
            · decide
            · exact htxt

/-- Branch lemma: a truthy title containing a slash takes the
directory-splitting branch of `saveArtifactToFile`. -/
lemma saveArtifactToFile_slash {config : Config} {artifact : Artifact} {title : Str}
    (ht : artifact.title = some title) (hs : title.contains '/' = true) :
    saveArtifactToFile config artifact =
      (let extension := getExtensionForType artifact.type artifact.language
      let parts := splitSlash title
      let fileName0 := (parts.getLast?).getD []
      let fileName :=
        if fileName0 = [] then ("artifact-").data ++ artifact.id else fileName0
      let dirPath := pathJoin2 config.savePath (joinSlash parts.dropLast)
      let outputPath :=
        if endsWithStr fileName ('.' :: extension) then
          pathJoin2 dirPath (sanitizeFileName fileName)
        else pathJoin2 dirPath (sanitizeFileName (fileName ++ '.' :: extension))
      ⟨outputPath, [config.savePath, dirPath], (outputPath, artifact.content)⟩) := by
  have hne : title ≠ [] := by
    rintro rfl
    simp [List.contains] at hs
  unfold saveArtifactToFile
  rw [ht]
  rw [if_pos (by simp [jsTruthy, hne] : jsTruthy (some title) = true)]
  simp only [Option.getD_some]
  rw [if_pos hs]

/-- Branch lemma: a truthy title without a slash appends the extension to
the whole title unconditionally. -/
lemma saveArtifactToFile_noSlash {config : Config} {artifact : Artifact} {title : Str}
    (ht : artifact.title = some title) (hne : title ≠ [])
    (hs : title.contains '/' = false) :
    saveArtifactToFile config artifact =
      (let outputPath := pathJoin2 config.savePath
        (sanitizeFileName (title ++ '.' ::
          getExtensionForType artifact.type artifact.language))
      ⟨outputPath, [config.savePath], (outputPath, artifact.content)⟩) := by
  unfold saveArtifactToFile
  rw [ht]
  rw [if_pos (by simp [jsTruthy, hne] : jsTruthy (some title) = true)]
  simp only [Option.getD_some]
  rw [if_neg (by rw [hs]; exact Bool.false_ne_true)]

/-- Branch lemma: a falsy title (absent or empty) takes the
`artifact-<id>` fallback branch. -/
lemma saveArtifactToFile_noTitle {config : Config} {artifact : Artifact}
    (ht : jsTruthy artifact.title = false) :
    saveArtifactToFile config artifact =
      (let outputPath := pathJoin2 config.savePath
        (sanitizeFileName (("artifact-").data ++ artifact.id ++ '.' ::
          getExtensionForType artifact.type artifact.language))
      ⟨outputPath, [config.savePath], (outputPath, artifact.content)⟩) := by
  unfold saveArtifactToFile
  rw [if_neg (by simp [ht])]

/-- Directories guaranteed to exist after `fs.mkdir(p, { recursive: true })`
on an absolute path `p`: every nonempty prefix of its normalized segment
list. -/
def mkdirRecCreates (p : Str) : List (List Str) :=
  (List.range (segsOf p).length).map (fun k => (segsOf p).take (k + 1))

/-- Directories created by a sequence of recursive mkdir calls. -/
def createdDirs (calls : List Str) : List (List Str) :=
  (calls.map mkdirRecCreates).flatten

lemma take_mem_mkdirRecCreates {p : Str} {k : Nat}
    (h : k < (segsOf p).length) : (segsOf p).take (k + 1) ∈ mkdirRecCreates p := by
  unfold mkdirRecCreates
  exact List.mem_map.mpr ⟨k, List.mem_range.mpr h, rfl⟩

lemma mem_createdDirs {calls : List Str} {c : Str} {d : List Str}
    (hc : c ∈ calls) (hd : d ∈ mkdirRecCreates c) : d ∈ createdDirs calls := by
  unfold createdDirs
  exact List.mem_flatten.mpr ⟨mkdirRecCreates c, List.mem_map.mpr ⟨c, hc, rfl⟩, hd⟩

lemma listEntries_append (rp : Str) (xs ys : List FsTree) :
    listEntries rp (xs ++ ys) = listEntries rp xs ++ listEntries rp ys := by
  induction xs with
  | nil => simp [listEntries]
  | cons e es ih => simp [listEntries, ih]

/-- C3: if directory creation fails during `updateSavePath`, the operation
throws an error wrapping the underlying cause and `Config.savePath` retains
its prior value (also through `getConfig`); on success, `Config.savePath`
becomes the absolute resolution of the argument. -/
theorem updateSavePath_spec (cwd newPath e : Str) (config : Config) :
    (updateSavePath cwd newPath (.error e) config).2 = config ∧
    getConfig (updateSavePath cwd newPath (.error e) config).2 = getConfig config ∧
    (updateSavePath cwd newPath (.error e) config).1 =
      .error (("Failed to set save path: ").data ++ e) ∧
    (updateSavePath cwd newPath (.ok ()) config).2.savePath =
      pathResolve cwd newPath ∧
    isAbsolutePath (pathResolve cwd newPath) = true := by
  exact ⟨rfl, rfl, rfl, rfl, rfl⟩

/-- C6: `listSavedArtifacts` is a total function of the filesystem model
(it cannot throw), and when the root directory is missing (`none`) or its
`readdir` rejects (unreadable), it returns the empty sequence. -/
theorem listSavedArtifacts_missing_or_unreadable_root (entries : List FsTree) :
    listSavedArtifacts none = [] ∧
    listSavedArtifacts (some (false, entries)) = [] := by
  exact ⟨rfl, rfl⟩

/-- C7: an unreadable subdirectory encountered during listing contributes
nothing, while traversal continues and the contributions of all entries
before and after it — in particular files already collected from sibling
directories — are retained unchanged. -/
theorem unreadable_subdir_skipped (rp n : Str) (pre post cs : List FsTree) :
    listEntries rp (pre ++ FsTree.dir n false cs :: post) =
      listEntries rp pre ++ listEntries rp post ∧
    listSavedArtifacts (some (true, pre ++ FsTree.dir n false cs :: post)) =
      listSavedArtifacts (some (true, pre)) ++
        listSavedArtifacts (some (true, post)) := by
  have key : ∀ rp', listEntries rp' (pre ++ FsTree.dir n false cs :: post) =
      listEntries rp' pre ++ listEntries rp' post := by
    intro rp'
    rw [listEntries_append]
    simp [listEntries, listEntry]
  exact ⟨key rp, key []⟩

/-- C9: a present-but-empty title is falsy in JavaScript, so
`saveArtifactToFile` behaves exactly as if the title were absent and writes
`artifact-<id>.<ext>` directly under the save root. -/
theorem empty_title_behaves_as_absent (config : Config) (a : Artifact)
    (ht : a.title = some []) :
    saveArtifactToFile config a =
      saveArtifactToFile config { a with title := none } ∧
    (saveArtifactToFile config a).outputPath =
      pathJoin2 config.savePath
        (sanitizeFileName (("artifact-").data ++ a.id ++ '.' ::
          getExtensionForType a.type a.language)) := by
  have h1 : jsTruthy a.title = false := by rw [ht]; rfl
  have h2 : jsTruthy ({ a with title := none } : Artifact).title = false := rfl
  rw [saveArtifactToFile_noTitle h1, saveArtifactToFile_noTitle h2]
  exact ⟨rfl, rfl⟩

/-- Witness for C9 at a concrete artifact. -/
theorem empty_title_behaves_as_absent_witness :
    (⟨("abc").data, some [], ("body").data, ("text/html").data, none, 0⟩ :
      Artifact).title = some [] ∧
    (saveArtifactToFile ⟨("/r").data⟩
      ⟨("abc").data, some [], ("body").data, ("text/html").data, none, 0⟩).outputPath =
      ("/r/artifact-abc.html").data := by
  refine ⟨rfl, ?_⟩
  have h := empty_title_behaves_as_absent ⟨("/r").data⟩
    ⟨("abc").data, some [], ("body").data, ("text/html").data, none, 0⟩ rfl
  rw [h.2]
  decide

/-- C10: sanitization leaves dots unchanged, so the title `../escape`
produces a write at `/home/user/escape.md`, outside the configured save
root `/home/user/artifacts`. -/
theorem dotdot_title_escapes_save_root :
    sanitizeFileName (("../escape.md").data) = ("../escape.md").data ∧
    (saveArtifactToFile ⟨("/home/user/artifacts").data⟩
      ⟨("x").data, some (("../escape").data), ("body").data,
        ("text/markdown").data, none, 0⟩).outputPath =
      ("/home/user/escape.md").data ∧
    ¬ (("/home/user/artifacts/").data : Str) <+:
      (saveArtifactToFile ⟨("/home/user/artifacts").data⟩
        ⟨("x").data, some (("../escape").data), ("body").data,
          ("text/markdown").data, none, 0⟩).outputPath ∧
    (saveArtifactToFile ⟨("/home/user/artifacts").data⟩
      ⟨("x").data, some (("../escape").data), ("body").data,
        ("text/markdown").data, none, 0⟩).outputPath ≠
      ("/home/user/artifacts").data := by
  decide

/-- Counterexample to C1: a slash-free title that already ends with the
resolved extension still gets the extension appended, yielding a duplicated
suffix (`notes.md` with type `text/markdown` is written as
`notes.md.md`, not `notes.md`). -/
theorem noSlash_title_duplicates_extension :
    endsWithStr (("notes.md").data)
      ('.' :: getExtensionForType (("text/markdown").data) none) = true ∧
    (saveArtifactToFile ⟨("/r").data⟩
      ⟨("x").data, some (("notes.md").data), ("body").data,
        ("text/markdown").data, none, 0⟩).outputPath = ("/r/notes.md.md").data ∧
    (saveArtifactToFile ⟨("/r").data⟩
      ⟨("x").data, some (("notes.md").data), ("body").data,
        ("text/markdown").data, none, 0⟩).outputPath ≠ ("/r/notes.md").data := by
  decide

/-- Counterexample to C2: a directory component coming from a
slash-containing title is not sanitized — the forbidden character `<`
survives into both the created directory and the output path. -/
theorem dir_segment_keeps_forbidden_char :
    isForbiddenChar '<' = true ∧
    (saveArtifactToFile ⟨("/r").data⟩
      ⟨("x").data, some (("a<b/c").data), ("body").data,
        ("text/markdown").data, none, 0⟩).outputPath = ("/r/a<b/c.md").data ∧
    '<' ∈ (saveArtifactToFile ⟨("/r").data⟩
      ⟨("x").data, some (("a<b/c").data), ("body").data,
        ("text/markdown").data, none, 0⟩).outputPath ∧
    (saveArtifactToFile ⟨("/r").data⟩
      ⟨("x").data, some (("a<b/c").data), ("body").data,
        ("text/markdown").data, none, 0⟩).mkdirCalls =
      [("/r").data, ("/r/a<b").data] := by
  decide

/-- Counterexample to C5: a title containing `/` whose directory segment is
`..` is not written at a nested path under the save root — the file lands
outside `/r/a` entirely. -/
theorem dotdot_title_not_nested_under_root :
    (("../f").data : Str).contains '/' = true ∧
    (saveArtifactToFile ⟨("/r/a").data⟩
      ⟨("x").data, some (("../f").data), ("body").data,
        ("text/markdown").data, none, 0⟩).outputPath = ("/r/f.md").data ∧
    ¬ (("/r/a/").data : Str) <+:
      (saveArtifactToFile ⟨("/r/a").data⟩
        ⟨("x").data, some (("../f").data), ("body").data,
          ("text/markdown").data, none, 0⟩).outputPath := by
  decide

lemma splitSlash_length_two {title : Str} (h : '/' ∈ title) :
    2 ≤ (splitSlash title).length := by
  obtain ⟨s, t, rfl⟩ := List.append_of_mem h
  rw [splitSlash_append_slash]
  have h1 := List.length_pos.mpr (splitSlash_ne_nil s)
  have h2 := List.length_pos.mpr (splitSlash_ne_nil t)
  rw [List.length_append]
  omega

lemma joinSlash_ne_nil {segs : List Str} (h1 : segs ≠ [])
    (h2 : ∀ s ∈ segs, s ≠ []) : joinSlash segs ≠ [] := by
  cases segs with
  | nil => exact absurd rfl h1
  | cons s rest =>
    cases rest with
    | nil => exact h2 s (by simp)
    | cons r rs =>
      rw [joinSlash_cons (by simp)]
      simp

/-- Appending a dot and a resolver-produced extension to a nonempty,
slash-free string yields a normal path component. -/
lemma normalSeg_with_ext {s : Str} (hne : s ≠ []) (hslash : '/' ∉ s)
    (t : Str) (l : Option Str) :
    NormalSeg (s ++ '.' :: getExtensionForType t l) := by
  obtain ⟨⟨hext_ne, -, -, hext_slash⟩, -, -⟩ := extension_props t l
  have hs1 := List.length_pos.mpr hne
  have he1 := List.length_pos.mpr hext_ne
  have hlen : 3 ≤ (s ++ '.' :: getExtensionForType t l).length := by
    rw [List.length_append, List.length_cons]
    omega
  refine ⟨by simp, ?_, ?_, ?_⟩
  · intro habs
    have := congrArg List.length habs
    rw [this] at hlen
    simp at hlen
  · intro habs
    have := congrArg List.length habs
    rw [this] at hlen
    simp at hlen
  · intro habs
    rcases List.mem_append.mp habs with hm | hm
    · exact hslash hm
    · rcases List.mem_cons.mp hm with hm | hm
      · exact absurd hm (by decide)
      · exact hext_slash hm

/-- Core characterization of the slash branch for titles made of normal
segments under a normal absolute save root: the mkdir calls, output path
and write of `saveArtifactToFile`, expressed as plain concatenations. -/
lemma slash_branch_normal_core {config : Config} {a : Artifact}
    {title lastSeg ext fname : Str} {dirSegs : List Str}
    (ht : a.title = some title) (hs : title.contains '/' = true)
    (hroot : NormalAbsPath config.savePath)
    (hsegs : ∀ s ∈ splitSlash title, NormalSeg s)
    (hls : lastSeg = (splitSlash title).getLast?.getD [])
    (hds : dirSegs = (splitSlash title).dropLast)
    (hext : ext = getExtensionForType a.type a.language)
    (hfn : fname = if endsWithStr lastSeg ('.' :: ext) = true then
        sanitizeFileName lastSeg else sanitizeFileName (lastSeg ++ '.' :: ext)) :
    NormalSeg fname ∧ dirSegs ≠ [] ∧
    (saveArtifactToFile config a).outputPath =
      config.savePath ++ '/' :: joinSlash (dirSegs ++ [fname]) ∧
    (saveArtifactToFile config a).mkdirCalls =
      [config.savePath, config.savePath ++ '/' :: joinSlash dirSegs] ∧
    segsOf (config.savePath ++ '/' :: joinSlash dirSegs) =
      segsOf config.savePath ++ dirSegs ∧
    (saveArtifactToFile config a).written =
      ((saveArtifactToFile config a).outputPath, a.content) := by
  have hmem : '/' ∈ title := contains_iff_mem.mp hs
  have hlen2 := splitSlash_length_two hmem
  have hpne : splitSlash title ≠ [] := splitSlash_ne_nil title
  have hlastD : (splitSlash title).getLast?.getD [] = (splitSlash title).getLast hpne := by
    rw [List.getLast?_eq_getLast _ hpne]
    rfl
  have hlast_normal : NormalSeg lastSeg := by
    rw [hls, hlastD]
    exact hsegs _ (List.getLast_mem hpne)
  have hdropne : dirSegs ≠ [] := by
    rw [hds]
    intro habs
    have := congrArg List.length habs
    rw [List.length_dropLast] at this
    simp at this
    omega
  have hdrop_normal : ∀ s ∈ dirSegs, NormalSeg s := by
    rw [hds]
    exact fun s hs' => hsegs s (List.dropLast_subset _ hs')
  have hdrop_ne : ∀ s ∈ dirSegs, s ≠ [] := fun s hs' => (hdrop_normal s hs').1
  have hdrop_noslash : ∀ s ∈ dirSegs, '/' ∉ s := fun s hs' => (hdrop_normal s hs').2.2.2
  have hb_ne : joinSlash dirSegs ≠ [] := joinSlash_ne_nil hdropne hdrop_ne
  have hb_segs : ∀ s ∈ splitSlash (joinSlash dirSegs), NormalSeg s := by
    rw [splitSlash_joinSlash hdropne hdrop_noslash]
    exact hdrop_normal
  have hfname_normal : NormalSeg fname := by
    rw [hfn]
    split
    · exact sanitizeFileName_normalSeg hlast_normal
    · rw [hext]
      exact sanitizeFileName_normalSeg
        (normalSeg_with_ext hlast_normal.1 hlast_normal.2.2.2 a.type a.language)
  have hfname_single : ∀ s ∈ splitSlash fname, NormalSeg s := by
    rw [splitSlash_eq_single hfname_normal.2.2.2]
    intro s hs'
    rw [List.mem_singleton.mp hs']
    exact hfname_normal
  have hdirPath : pathJoin2 config.savePath (joinSlash dirSegs) =
      config.savePath ++ '/' :: joinSlash dirSegs :=
    pathJoin2_normalAbs hroot hb_ne hb_segs
  have hdirAbs : NormalAbsPath (config.savePath ++ '/' :: joinSlash dirSegs) :=
    normalAbsPath_append hroot hb_ne hb_segs
  have hout : pathJoin2 (config.savePath ++ '/' :: joinSlash dirSegs) fname =
      config.savePath ++ '/' :: joinSlash (dirSegs ++ [fname]) := by
    rw [pathJoin2_normalAbs hdirAbs hfname_normal.1 hfname_single,
      joinSlash_append hdropne (by simp)]
    simp [joinSlash]
  refine ⟨hfname_normal, hdropne, ?_, ?_, ?_, ?_⟩
  · rw [saveArtifactToFile_slash ht hs]
    show (if endsWithStr
          (if ((splitSlash title).getLast?).getD [] = [] then
            ("artifact-").data ++ a.id else ((splitSlash title).getLast?).getD [])
          ('.' :: getExtensionForType a.type a.language) = true then
        pathJoin2 (pathJoin2 config.savePath (joinSlash (splitSlash title).dropLast))
          (sanitizeFileName (if ((splitSlash title).getLast?).getD [] = [] then
            ("artifact-").data ++ a.id else ((splitSlash title).getLast?).getD []))
      else
        pathJoin2 (pathJoin2 config.savePath (joinSlash (splitSlash title).dropLast))
          (sanitizeFileName ((if ((splitSlash title).getLast?).getD [] = [] then
            ("artifact-").data ++ a.id else ((splitSlash title).getLast?).getD []) ++
            '.' :: getExtensionForType a.type a.language))) =
      config.savePath ++ '/' :: joinSlash (dirSegs ++ [fname])
    rw [← hls, ← hds, ← hext]
    simp only [if_neg hlast_normal.1]
    rw [hdirPath]
    by_cases hcond : endsWithStr lastSeg ('.' :: ext) = true
    · rw [if_pos hcond,
        show sanitizeFileName lastSeg = fname by rw [hfn, if_pos hcond], hout]
    · rw [if_neg hcond,
        show sanitizeFileName (lastSeg ++ '.' :: ext) = fname by
          rw [hfn, if_neg hcond],
        hout]
  · rw [saveArtifactToFile_slash ht hs]
    show [config.savePath,
        pathJoin2 config.savePath (joinSlash (splitSlash title).dropLast)] =
      [config.savePath, config.savePath ++ '/' :: joinSlash dirSegs]
    rw [← hds, hdirPath]
  · rw [segsOf_join hroot hb_segs, splitSlash_joinSlash hdropne hdrop_noslash]
  · rw [saveArtifactToFile_slash ht hs]

/-- C5 (amended): for every title containing `/` whose `/`-separated
segments are all normal path components (nonempty, not `.` or `..`), and a
normal absolute save root, `saveArtifactToFile` splits the title on `/`,
issues its recursive mkdir calls — which create the save root and every
intermediate directory of the preceding segments under it — before the
write, and writes the file at the nested path under the save root whose
final component is derived from the final segment (sanitized, with the
extension appended unless already present). The unamended claim fails for
`..` segments, which escape the save root. -/
theorem slash_title_saves_nested (config : Config) (a : Artifact) (title : Str)
    (ht : a.title = some title) (hs : title.contains '/' = true)
    (hroot : NormalAbsPath config.savePath)
    (hsegs : ∀ s ∈ splitSlash title, NormalSeg s) :
    ∃ fname, NormalSeg fname ∧
      (fname = sanitizeFileName ((splitSlash title).getLast?.getD []) ∨
       fname = sanitizeFileName ((splitSlash title).getLast?.getD [] ++ '.' ::
         getExtensionForType a.type a.language)) ∧
      (saveArtifactToFile config a).outputPath =
        config.savePath ++ '/' ::
          joinSlash ((splitSlash title).dropLast ++ [fname]) ∧
      (saveArtifactToFile config a).written =
        ((saveArtifactToFile config a).outputPath, a.content) ∧
      (saveArtifactToFile config a).mkdirCalls =
        [config.savePath,
          config.savePath ++ '/' :: joinSlash (splitSlash title).dropLast] ∧
      (∀ k, k ≤ ((splitSlash title).dropLast).length →
        segsOf config.savePath ++ ((splitSlash title).dropLast).take k ∈
          createdDirs (saveArtifactToFile config a).mkdirCalls) := by
  obtain ⟨hfn_norm, hdropne, hout, hmk, hsegsj, hwr⟩ :=
    slash_branch_normal_core ht hs hroot hsegs rfl rfl rfl rfl
  refine ⟨_, hfn_norm, ?_, hout, hwr, hmk, ?_⟩
  · split
    · exact Or.inl rfl
    · exact Or.inr rfl
  · intro k hk
    rw [hmk]
    rcases Nat.eq_zero_or_pos k with hk0 | hkpos
    · subst hk0
      simp only [List.take_zero, List.append_nil]
      have hroot_ne : segsOf config.savePath ≠ [] := by
        rw [segsOf_normalAbs hroot]
        exact splitSlash_ne_nil _
      have hlen := List.length_pos.mpr hroot_ne
      have hmem1 : segsOf config.savePath ∈ mkdirRecCreates config.savePath := by
        have hmem0 := take_mem_mkdirRecCreates (p := config.savePath)
          (k := (segsOf config.savePath).length - 1) (by omega)
        rwa [show (segsOf config.savePath).length - 1 + 1 =
            (segsOf config.savePath).length by omega,
          List.take_length] at hmem0
      exact mem_createdDirs (by simp) hmem1
    · have htake : segsOf config.savePath ++ ((splitSlash title).dropLast).take k =
          (segsOf config.savePath ++ (splitSlash title).dropLast).take
            ((segsOf config.savePath).length + k) := by
        rw [List.take_append]
      rw [htake, ← hsegsj]
      refine mem_createdDirs
        (c := config.savePath ++ '/' :: joinSlash (splitSlash title).dropLast)
        (by simp) ?_
      have hlen : (segsOf (config.savePath ++ '/' ::
          joinSlash (splitSlash title).dropLast)).length =
          (segsOf config.savePath).length +
            ((splitSlash title).dropLast).length := by
        rw [hsegsj, List.length_append]
      have hmem0 := take_mem_mkdirRecCreates
        (p := config.savePath ++ '/' :: joinSlash (splitSlash title).dropLast)
        (k := (segsOf config.savePath).length + k - 1) (by omega)
      rwa [show (segsOf config.savePath).length + k - 1 + 1 =
          (segsOf config.savePath).length + k by omega] at hmem0

/-- C1 (amended): the duplicate-extension guard exists only in the slash
branch. For a title containing `/` whose final segment (a normal component,
like the others) already ends with `.<ext>`, the final segment is used with
only sanitization applied and no second extension is appended; for a
slash-free title the extension is appended unconditionally, so such a title
already ending in `.<ext>` does yield a duplicated suffix. -/
theorem extension_dedup_only_in_slash_branch (config : Config) (a : Artifact)
    (title : Str) (ht : a.title = some title)
    (hroot : NormalAbsPath config.savePath) :
    (title.contains '/' = true →
      (∀ s ∈ splitSlash title, NormalSeg s) →
      endsWithStr ((splitSlash title).getLast?.getD [])
        ('.' :: getExtensionForType a.type a.language) = true →
      (saveArtifactToFile config a).outputPath =
        config.savePath ++ '/' :: joinSlash ((splitSlash title).dropLast ++
          [sanitizeFileName ((splitSlash title).getLast?.getD [])])) ∧
    (title.contains '/' = false → title ≠ [] →
      (saveArtifactToFile config a).outputPath =
        pathJoin2 config.savePath (sanitizeFileName (title ++ '.' ::
          getExtensionForType a.type a.language))) := by
  constructor
  · intro hs hsegs hend
    obtain ⟨-, -, hout, -, -, -⟩ :=
      slash_branch_normal_core ht hs hroot hsegs rfl rfl rfl rfl
    rw [hout, if_pos hend]
  · intro hs hne
    rw [saveArtifactToFile_noSlash ht hne hs]

/-- C2 (amended): only the final filename component is sanitized. For a
slash-free title the whole produced filename component is the sanitized
`title.<ext>`, and every character of that component is non-forbidden;
directory components derived from slash-containing titles are joined
without sanitization (see the counterexample). -/
theorem filename_segment_sanitized (config : Config) (a : Artifact)
    (title : Str) (ht : a.title = some title) (hne : title ≠ [])
    (hs : title.contains '/' = false) (hroot : NormalAbsPath config.savePath) :
    (saveArtifactToFile config a).outputPath =
      config.savePath ++ '/' ::
        sanitizeFileName (title ++ '.' :: getExtensionForType a.type a.language) ∧
    (∀ c ∈ sanitizeFileName (title ++ '.' ::
        getExtensionForType a.type a.language),
      isForbiddenChar c = false) := by
  have hnoslash : '/' ∉ title := by
    intro hmem
    have hc := contains_iff_mem.mpr hmem
    rw [hs] at hc
    exact Bool.false_ne_true hc
  have hfn := normalSeg_with_ext hne hnoslash a.type a.language
  have hsan := sanitizeFileName_normalSeg hfn
  constructor
  · rw [saveArtifactToFile_noSlash ht hne hs]
    exact pathJoin2_normalAbs hroot hsan.1 (by
      rw [splitSlash_eq_single hsan.2.2.2]
      intro s hs'
      rw [List.mem_singleton.mp hs']
      exact hsan)
  · intro c hc
    exact sanitizeFileName_no_forbidden hc

/-- C8: when the split on `/` yields an empty final segment (title ending
in `/`), the filename falls back to `artifact-<id>` with the extension
logic applied, and the file is placed in the directory formed by the
preceding segments. -/
theorem empty_final_segment_falls_back (config : Config) (a : Artifact)
    (title : Str) (ht : a.title = some title)
    (hs : title.contains '/' = true)
    (hlast : (splitSlash title).getLast? = some []) :
    (saveArtifactToFile config a).mkdirCalls =
      [config.savePath,
        pathJoin2 config.savePath (joinSlash (splitSlash title).dropLast)] ∧
    (saveArtifactToFile config a).outputPath =
      (if endsWithStr (("artifact-").data ++ a.id)
          ('.' :: getExtensionForType a.type a.language) = true then
        pathJoin2
          (pathJoin2 config.savePath (joinSlash (splitSlash title).dropLast))
          (sanitizeFileName (("artifact-").data ++ a.id))
      else
        pathJoin2
          (pathJoin2 config.savePath (joinSlash (splitSlash title).dropLast))
          (sanitizeFileName (("artifact-").data ++ a.id ++ '.' ::
            getExtensionForType a.type a.language))) := by
  rw [saveArtifactToFile_slash ht hs]
  refine ⟨rfl, ?_⟩
  show (if endsWithStr
        (if ((splitSlash title).getLast?).getD [] = [] then
          ("artifact-").data ++ a.id else ((splitSlash title).getLast?).getD [])
        ('.' :: getExtensionForType a.type a.language) = true then
      pathJoin2
        (pathJoin2 config.savePath (joinSlash (splitSlash title).dropLast))
        (sanitizeFileName (if ((splitSlash title).getLast?).getD [] = [] then
          ("artifact-").data ++ a.id else ((splitSlash title).getLast?).getD []))
    else
      pathJoin2
        (pathJoin2 config.savePath (joinSlash (splitSlash title).dropLast))
        (sanitizeFileName ((if ((splitSlash title).getLast?).getD [] = [] then
          ("artifact-").data ++ a.id else ((splitSlash title).getLast?).getD []) ++
          '.' :: getExtensionForType a.type a.language))) = _
  rw [hlast]
  simp only [Option.getD_some]
  simp

/-- C4: the extension resolver is total (a plain function) and matches the
table: each code language maps to its extension (with `shell` and `bash`
both mapping to `sh`), each non-code type row holds for every language
argument, the language comparison is case-insensitive, any type outside
the table yields `txt`, and type `application/vnd.ant.code` with an
unknown or missing language yields `txt`. -/
theorem getExtensionForType_spec :
    ((getExtensionForType (("application/vnd.ant.code").data)
        (some (("python").data)) = ("py").data ∧
      getExtensionForType (("application/vnd.ant.code").data)
        (some (("javascript").data)) = ("js").data ∧
      getExtensionForType (("application/vnd.ant.code").data)
        (some (("typescript").data)) = ("ts").data ∧
      getExtensionForType (("application/vnd.ant.code").data)
        (some (("java").data)) = ("java").data ∧
      getExtensionForType (("application/vnd.ant.code").data)
        (some (("c").data)) = ("c").data ∧
      getExtensionForType (("application/vnd.ant.code").data)
        (some (("cpp").data)) = ("cpp").data ∧
      getExtensionForType (("application/vnd.ant.code").data)
        (some (("csharp").data)) = ("cs").data ∧
      getExtensionForType (("application/vnd.ant.code").data)
        (some (("go").data)) = ("go").data ∧
      getExtensionForType (("application/vnd.ant.code").data)
        (some (("ruby").data)) = ("rb").data ∧
      getExtensionForType (("application/vnd.ant.code").data)
        (some (("rust").data)) = ("rs").data ∧
      getExtensionForType (("application/vnd.ant.code").data)
        (some (("php").data)) = ("php").data ∧
      getExtensionForType (("application/vnd.ant.code").data)
        (some (("swift").data)) = ("swift").data) ∧
     (getExtensionForType (("application/vnd.ant.code").data)
        (some (("kotlin").data)) = ("kt").data ∧
      getExtensionForType (("application/vnd.ant.code").data)
        (some (("scala").data)) = ("scala").data ∧
      getExtensionForType (("application/vnd.ant.code").data)
        (some (("shell").data)) = ("sh").data ∧
      getExtensionForType (("application/vnd.ant.code").data)
        (some (("bash").data)) = ("sh").data ∧
      getExtensionForType (("application/vnd.ant.code").data)
        (some (("powershell").data)) = ("ps1").data ∧
      getExtensionForType (("application/vnd.ant.code").data)
        (some (("sql").data)) = ("sql").data ∧
      getExtensionForType (("application/vnd.ant.code").data)
        (some (("html").data)) = ("html").data ∧
      getExtensionForType (("application/vnd.ant.code").data)
        (some (("css").data)) = ("css").data ∧
      getExtensionForType (("application/vnd.ant.code").data)
        (some (("json").data)) = ("json").data ∧
      getExtensionForType (("application/vnd.ant.code").data)
        (some (("yaml").data)) = ("yaml").data ∧
      getExtensionForType (("application/vnd.ant.code").data)
        (some (("xml").data)) = ("xml").data)) ∧
    ((∀ lang, getExtensionForType (("text/markdown").data) lang = ("md").data) ∧
     (∀ lang, getExtensionForType (("text/html").data) lang = ("html").data) ∧
     (∀ lang, getExtensionForType (("image/svg+xml").data) lang = ("svg").data) ∧
     (∀ lang, getExtensionForType (("application/vnd.ant.mermaid").data) lang =
       ("mmd").data) ∧
     (∀ lang, getExtensionForType (("application/vnd.ant.react").data) lang =
       ("jsx").data)) ∧
    (∀ l1 l2 : Str, toLowerStr l1 = toLowerStr l2 →
      getCodeExtension l1 = getCodeExtension l2) ∧
    (∀ type language,
      type ∉ ([("application/vnd.ant.code").data, ("text/markdown").data,
        ("text/html").data, ("image/svg+xml").data,
        ("application/vnd.ant.mermaid").data,
        ("application/vnd.ant.react").data] : List Str) →
      getExtensionForType type language = ("txt").data) ∧
    (∀ l : Str, lookupExt codeExtensions (toLowerStr l) = none →
      getExtensionForType (("application/vnd.ant.code").data) (some l) =
        ("txt").data) ∧
    getExtensionForType (("application/vnd.ant.code").data) none =
      ("txt").data := by
  refine ⟨by decide, ⟨?_, ?_, ?_, ?_, ?_⟩, ?_, ?_, ?_, by decide⟩
  · intro lang
    unfold getExtensionForType
    rw [if_neg (by decide), if_pos rfl]
  · intro lang
    unfold getExtensionForType
    rw [if_neg (by decide), if_neg (by decide), if_pos rfl]
  · intro lang
    unfold getExtensionForType
    rw [if_neg (by decide), if_neg (by decide), if_neg (by decide), if_pos rfl]
  · intro lang
    unfold getExtensionForType
    rw [if_neg (by decide), if_neg (by decide), if_neg (by decide),
      if_neg (by decide), if_pos rfl]
  · intro lang
    unfold getExtensionForType
    rw [if_neg (by decide), if_neg (by decide), if_neg (by decide),
      if_neg (by decide), if_neg (by decide), if_pos rfl]
  · intro l1 l2 h
    unfold getCodeExtension
    rw [h]
  · intro type language h
    simp only [List.mem_cons, List.not_mem_nil, or_false, not_or] at h
    obtain ⟨h1, h2, h3, h4, h5, h6⟩ := h
    unfold getExtensionForType
    rw [if_neg h1, if_neg h2, if_neg h3, if_neg h4, if_neg h5, if_neg h6]
  · intro l hl
    unfold getExtensionForType
    rw [if_pos rfl]
    unfold getCodeExtension
    simp only [jsOrTxt]
    by_cases hemp : l = []
    · rw [if_pos hemp]
      decide
    · rw [if_neg hemp, hl]
      rfl

/-- Witness for the universally quantified clauses of C4 at concrete
inputs: case-insensitive lookup, an unlisted type, and an unknown
language. -/
theorem getExtensionForType_spec_witness :
    toLowerStr (("PyThOn").data) = toLowerStr (("python").data) ∧
    getCodeExtension (("PyThOn").data) = getCodeExtension (("python").data) ∧
    getExtensionForType (("text/markdown").data)
      (some (("python").data)) = ("md").data ∧
    (("text/plain").data : Str) ∉ ([("application/vnd.ant.code").data,
      ("text/markdown").data, ("text/html").data, ("image/svg+xml").data,
      ("application/vnd.ant.mermaid").data,
      ("application/vnd.ant.react").data] : List Str) ∧
    getExtensionForType (("text/plain").data) none = ("txt").data ∧
    lookupExt codeExtensions (toLowerStr (("klingon").data)) = none ∧
    getExtensionForType (("application/vnd.ant.code").data)
      (some (("klingon").data)) = ("txt").data := by
  refine ⟨by decide, ?_, ?_, by decide, ?_, by decide, ?_⟩
  · exact getExtensionForType_spec.2.2.1 _ _ (by decide)
  · exact getExtensionForType_spec.2.1.1 (some (("python").data))
  · exact getExtensionForType_spec.2.2.2.1 _ none (by decide)
  · exact getExtensionForType_spec.2.2.2.2.1 _ (by decide)

/-- Witness for the amended C1 at a concrete input: the slash-title
`docs/readme.md` with type `text/markdown` keeps its final segment
unduplicated. -/
theorem extension_dedup_only_in_slash_branch_witness :
    NormalAbsPath (("/r").data) ∧
    (("docs/readme.md").data : Str).contains '/' = true ∧
    (∀ s ∈ splitSlash (("docs/readme.md").data), NormalSeg s) ∧
    endsWithStr ((splitSlash (("docs/readme.md").data)).getLast?.getD [])
      ('.' :: getExtensionForType (("text/markdown").data) none) = true ∧
    (saveArtifactToFile ⟨("/r").data⟩
      ⟨("x").data, some (("docs/readme.md").data), ("body").data,
        ("text/markdown").data, none, 0⟩).outputPath =
      ("/r/docs/readme.md").data := by
  refine ⟨by decide, by decide, by decide, by decide, ?_⟩
  have h := (extension_dedup_only_in_slash_branch ⟨("/r").data⟩
    ⟨("x").data, some (("docs/readme.md").data), ("body").data,
      ("text/markdown").data, none, 0⟩ (("docs/readme.md").data) rfl
    (by decide)).1 (by decide) (by decide) (by decide)
  rw [h]
  decide

/-- Witness for the amended C2 at the spec's concrete scenario: the title
`a:b?c` with type `text/plain` is sanitized to the filename `a_b_c.txt`. -/
theorem filename_segment_sanitized_witness :
    NormalAbsPath (("/r").data) ∧
    (("a:b?c").data : Str).contains '/' = false ∧
    (("a:b?c").data : Str) ≠ [] ∧
    (saveArtifactToFile ⟨("/r").data⟩
      ⟨("x").data, some (("a:b?c").data), ("body").data,
        ("text/plain").data, none, 0⟩).outputPath = ("/r/a_b_c.txt").data := by
  refine ⟨by decide, by decide, by decide, ?_⟩
  have h := (filename_segment_sanitized ⟨("/r").data⟩
    ⟨("x").data, some (("a:b?c").data), ("body").data,
      ("text/plain").data, none, 0⟩ (("a:b?c").data) rfl
    (by decide) (by decide) (by decide)).1
  rw [h]
  decide

/-- Witness for the amended C5 at the spec's concrete scenario
`dir1/dir2/readme` with type `text/markdown`. -/
theorem slash_title_saves_nested_witness :
    NormalAbsPath (("/r").data) ∧
    (("dir1/dir2/readme").data : Str).contains '/' = true ∧
    (∀ s ∈ splitSlash (("dir1/dir2/readme").data), NormalSeg s) ∧
    (∃ fname, NormalSeg fname ∧
      (fname = sanitizeFileName
        ((splitSlash (("dir1/dir2/readme").data)).getLast?.getD []) ∨
       fname = sanitizeFileName
        ((splitSlash (("dir1/dir2/readme").data)).getLast?.getD [] ++ '.' ::
          getExtensionForType (("text/markdown").data) none)) ∧
      (saveArtifactToFile ⟨("/r").data⟩
        ⟨("x").data, some (("dir1/dir2/readme").data), ("body").data,
          ("text/markdown").data, none, 0⟩).outputPath =
        ("/r").data ++ '/' ::
          joinSlash ((splitSlash (("dir1/dir2/readme").data)).dropLast ++
            [fname]) ∧
      (saveArtifactToFile ⟨("/r").data⟩
        ⟨("x").data, some (("dir1/dir2/readme").data), ("body").data,
          ("text/markdown").data, none, 0⟩).written =
        ((saveArtifactToFile ⟨("/r").data⟩
          ⟨("x").data, some (("dir1/dir2/readme").data), ("body").data,
            ("text/markdown").data, none, 0⟩).outputPath, ("body").data) ∧
      (saveArtifactToFile ⟨("/r").data⟩
        ⟨("x").data, some (("dir1/dir2/readme").data), ("body").data,
          ("text/markdown").data, none, 0⟩).mkdirCalls =
        [("/r").data, ("/r").data ++ '/' ::
          joinSlash (splitSlash (("dir1/dir2/readme").data)).dropLast] ∧
      (∀ k, k ≤ ((splitSlash (("dir1/dir2/readme").data)).dropLast).length →
        segsOf (("/r").data) ++
          ((splitSlash (("dir1/dir2/readme").data)).dropLast).take k ∈
          createdDirs (saveArtifactToFile ⟨("/r").data⟩
            ⟨("x").data, some (("dir1/dir2/readme").data), ("body").data,
              ("text/markdown").data, none, 0⟩).mkdirCalls)) := by
  refine ⟨by decide, by decide, by decide, ?_⟩
  exact slash_title_saves_nested ⟨("/r").data⟩
    ⟨("x").data, some (("dir1/dir2/readme").data), ("body").data,
      ("text/markdown").data, none, 0⟩ (("dir1/dir2/readme").data) rfl
    (by decide) (by decide) (by decide)

/-- Witness for C8 at a concrete input: the title `notes/` with id `z` and
type `text/markdown` is saved as `notes/artifact-z.md`. -/
theorem empty_final_segment_falls_back_witness :
    (("notes/").data : Str).contains '/' = true ∧
    (splitSlash (("notes/").data)).getLast? = some [] ∧
    (saveArtifactToFile ⟨("/r").data⟩
      ⟨("z").data, some (("notes/").data), ("body").data,
        ("text/markdown").data, none, 0⟩).outputPath =
      ("/r/notes/artifact-z.md").data ∧
    (saveArtifactToFile ⟨("/r").data⟩
      ⟨("z").data, some (("notes/").data), ("body").data,
        ("text/markdown").data, none, 0⟩).mkdirCalls =
      [("/r").data, ("/r/notes").data] := by
  have h := empty_final_segment_falls_back ⟨("/r").data⟩
    ⟨("z").data, some (("notes/").data), ("body").data,
      ("text/markdown").data, none, 0⟩ (("notes/").data) rfl
    (by decide) (by decide)
  refine ⟨by decide, by decide, ?_, ?_⟩
  · rw [h.2]
    decide
  · rw [h.1]
    decide
